import Mathlib

/-!
# Verification of the `bruteforce` crate's odometer sequencer

Shallow embedding of `src/bruteforce/src/lib.rs`: the `BruteForce` struct, its
three constructors (`new`, `new_at`, `new_by_start_string`), the
produce-and-advance operation `raw_next`, and the `Iterator` adapter.

Rust strings are modelled as `List Char`; `Vec<usize>` as `List Nat`;
a panic (a failed `assert!` or `.expect`) as `none` / `Except.error`.
-/

/-- Modelled from the spec: the file `charset.rs` (module `charset`, type
`Charset`) is not under `src/`.  The spec describes it as "a thin read-only
indexable view over a fixed character array" supporting length, positional
indexing and iteration, with no validation.  It is modelled as the underlying
list of characters. -/
abbrev Charset := List Char

/-- `struct BruteForce` from `lib.rs`: a charset, the rendered current string,
and `raw_current`, the reversed (least-significant-first) digit vector where
each element is an index into the charset. -/
structure BruteForce where
  chars : Charset
  current : List Char
  raw_current : List Nat
deriving Repr, DecidableEq

/-- `BruteForce::new`: empty string and empty digit vector. -/
def BruteForce.new (charset : Charset) : BruteForce :=
  { chars := charset, current := [], raw_current := [] }

/-- `BruteForce::new_at`: digit vector `(0..start).map(|_| 0).collect()`,
i.e. `start` zeros. -/
def BruteForce.new_at (charset : Charset) (start : Nat) : BruteForce :=
  { chars := charset, current := [], raw_current := List.replicate start 0 }

/-- `BruteForce::new_by_start_string`: maps each character of the start string,
processed in reverse, to its first index in the charset
(`charset.iter().position(|&c2| c1 == c2)`), collecting `Option`s; a missing
character makes the `.expect` panic, modelled as `Except.error` carrying the
panic message. -/
def BruteForce.new_by_start_string (charset : Charset) (start_string : List Char) :
    Except String BruteForce :=
  match start_string.reverse.mapM (fun c1 => charset.findIdx? (fun c2 => c1 == c2)) with
  | some raw =>
      Except.ok { chars := charset, current := [], raw_current := raw }
  | none => Except.error "characters in start_string must exist in charset"

/-- The rendering step of `BruteForce::raw_next`: iterate `raw_current` in
reverse, asserting each index is in range and mapping it through the charset.
A failed assertion (index out of range) is modelled as `none`. -/
def BruteForce.render (chars : Charset) (raw : List Nat) : Option (List Char) :=
  raw.reverse.mapM (fun i => chars.get? i)

/-- The advance step of `BruteForce::raw_next`: add 1 to the digit vector
(least-significant digit first); a digit reaching `k` resets to 0 and carries;
if every digit carries out (or the vector is empty) a new 0 digit is pushed at
the most-significant end. -/
def addOne (k : Nat) : List Nat → List Nat
  | [] => [0]
  | d :: rest => if d + 1 = k then 0 :: addOne k rest else (d + 1) :: rest

/-- `BruteForce::raw_next`: render the current digit vector into the output
buffer, then advance the digit vector; returns the rendered string and the
mutated state, or `none` when the in-range assertion fails. -/
def BruteForce.raw_next (b : BruteForce) : Option (List Char × BruteForce) :=
  match BruteForce.render b.chars b.raw_current with
  | some s =>
      some (s, { chars := b.chars, current := s,
                 raw_current := addOne b.chars.length b.raw_current })
  | none => none

/-- The string produced by the `(n+1)`-th call to `raw_next` starting from
state `b` (so `produceN b 0` is the first call's output); `none` if any call
up to that point panics. -/
def produceN : BruteForce → Nat → Option (List Char)
  | b, 0 => (BruteForce.raw_next b).map Prod.fst
  | b, n + 1 =>
    match BruteForce.raw_next b with
    | some p => produceN p.2 n
    | none => none

/-- `Iterator::next` for `BruteForce`: `Some(self.raw_next().to_string())`.
The outer `Option` models a panic inside `raw_next`; the inner `Option` is
Rust's `Option<String>` return value. -/
def iterNext (b : BruteForce) : Option (Option (List Char) × BruteForce) :=
  (BruteForce.raw_next b).map (fun p => (some p.1, p.2))

/-- Number of strings over a `k`-letter alphabet of length strictly less than
`L`, i.e. `k^0 + k^1 + ... + k^(L-1)` (the spec's length-offset sum). -/
def countShorter (k : Nat) : Nat → Nat
  | 0 => 0
  | L + 1 => 1 + k * countShorter k L

/-- The base-`k` representation of `m`, zero-padded to exactly `L` digits,
least-significant digit first. -/
def padDigits (k : Nat) : Nat → Nat → List Nat
  | 0, _ => []
  | L + 1, m => m % k :: padDigits k L (m / k)

/-- The position in the shortlex enumeration encoded by a (least-significant
first) digit vector: the number of all shorter strings plus the base-`k` value
of the digits. -/
def digitsVal (k : Nat) (l : List Nat) : Nat :=
  countShorter k l.length + Nat.ofDigits k l

/-- Every digit of the vector is a legal index into a `k`-letter alphabet. -/
def validDigits (k : Nat) (l : List Nat) : Prop :=
  ∀ d ∈ l, d < k

instance (k : Nat) (l : List Nat) : Decidable (validDigits k l) :=
  List.decidableBAll _ l

/-- Strict lexicographic order on (most-significant-first) index lists. -/
def lexLt : List Nat → List Nat → Prop
  | _, [] => False
  | [], _ :: _ => True
  | a :: as, b :: bs => a < b ∨ (a = b ∧ lexLt as bs)

/-- Shortlex-then-lexicographic-by-alphabet-index order on strings over a
charset: shorter strings first, and among equal lengths the one whose sequence
of alphabet indices is lexicographically smaller comes first. -/
def shortlexIdxLt (chars : Charset) (s t : List Char) : Prop :=
  s.length < t.length ∨
    (s.length = t.length ∧
      lexLt (s.map (fun c => List.indexOf c chars)) (t.map (fun c => List.indexOf c chars)))

/-- States reachable from the three constructors (resuming only from a string
over the charset) by any number of successful `raw_next` calls. -/
inductive Reachable (chars : Charset) : BruteForce → Prop
  | new : Reachable chars (BruteForce.new chars)
  | new_at (start : Nat) : Reachable chars (BruteForce.new_at chars start)
  | resume (s : List Char) (b : BruteForce) (hs : ∀ c ∈ s, c ∈ chars)
      (h : BruteForce.new_by_start_string chars s = Except.ok b) : Reachable chars b
  | step (b b' : BruteForce) (out : List Char) (hb : Reachable chars b)
      (h : BruteForce.raw_next b = some (out, b')) : Reachable chars b'

/-! ## Arithmetic of the shortlex position encoding -/

theorem countShorter_succ_pow (k L : Nat) :
    countShorter k (L + 1) = countShorter k L + k ^ L := by
  induction L with
  | zero => simp [countShorter]
  | succ L ih =>
    calc countShorter k (L + 2) = 1 + k * countShorter k (L + 1) := rfl
    _ = 1 + k * (countShorter k L + k ^ L) := by rw [ih]
    _ = (1 + k * countShorter k L) + k ^ (L + 1) := by ring
    _ = countShorter k (L + 1) + k ^ (L + 1) := rfl

theorem countShorter_le_of_le (k : Nat) {L M : Nat} (h : L ≤ M) :
    countShorter k L ≤ countShorter k M := by
  induction M with
  | zero => simp [Nat.le_zero.mp h]
  | succ M ih =>
    rcases Nat.lt_or_ge L (M + 1) with hlt | hge
    · exact le_trans (ih (Nat.lt_succ_iff.mp hlt)) (by rw [countShorter_succ_pow]; omega)
    · have : L = M + 1 := le_antisymm h hge
      simp [this]

theorem digitsVal_nil (k : Nat) : digitsVal k [] = 0 := by
  simp [digitsVal, countShorter, Nat.ofDigits_nil]

theorem digitsVal_cons (k d : Nat) (t : List Nat) :
    digitsVal k (d :: t) = 1 + d + k * digitsVal k t := by
  simp only [digitsVal, List.length_cons, Nat.ofDigits_cons, countShorter, Nat.cast_id]
  ring

theorem ofDigits_lt_pow {k : Nat} :
    ∀ {l : List Nat}, validDigits k l → Nat.ofDigits k l < k ^ l.length := by
  intro l
  induction l with
  | nil => intro _; simp [Nat.ofDigits_nil]
  | cons d t ih =>
    intro hv
    have hd : d < k := hv d (List.mem_cons_self d t)
    have ht : Nat.ofDigits k t < k ^ t.length :=
      ih (fun x hx => hv x (List.mem_cons_of_mem d hx))
    have h1 : k * (Nat.ofDigits k t + 1) ≤ k * k ^ t.length :=
      Nat.mul_le_mul_left k ht
    calc (Nat.ofDigits k (d :: t) : Nat) = d + k * Nat.ofDigits k t := by
          simp [Nat.ofDigits_cons]
    _ < k * (Nat.ofDigits k t + 1) := by
          have hmul : k * (Nat.ofDigits k t + 1) = k * Nat.ofDigits k t + k := by ring
          omega
    _ ≤ k * k ^ t.length := h1
    _ = k ^ (d :: t).length := by
          rw [List.length_cons, pow_succ]; ring

theorem digitsVal_lower (k : Nat) (l : List Nat) :
    countShorter k l.length ≤ digitsVal k l := Nat.le_add_right _ _

theorem digitsVal_upper {k : Nat} {l : List Nat} (hv : validDigits k l) :
    digitsVal k l < countShorter k (l.length + 1) := by
  have := ofDigits_lt_pow hv
  rw [countShorter_succ_pow]
  unfold digitsVal
  omega

/-! ## The increment step -/

theorem addOne_valid {k : Nat} (hk : 1 ≤ k) :
    ∀ {l : List Nat}, validDigits k l → validDigits k (addOne k l) := by
  intro l
  induction l with
  | nil =>
    intro _ d hd
    simp only [addOne, List.mem_singleton] at hd
    omega
  | cons x t ih =>
    intro hv
    have hx : x < k := hv x (List.mem_cons_self x t)
    have ht : validDigits k t := fun d hd => hv d (List.mem_cons_of_mem x hd)
    by_cases hcase : x + 1 = k
    · simp only [addOne, if_pos hcase]
      intro d hd
      rcases List.mem_cons.mp hd with h0 | hmem
      · omega
      · exact ih ht d hmem
    · simp only [addOne, if_neg hcase]
      intro d hd
      rcases List.mem_cons.mp hd with h0 | hmem
      · omega
      · exact ht d hmem

theorem digitsVal_addOne {k : Nat} :
    ∀ {l : List Nat}, validDigits k l → digitsVal k (addOne k l) = digitsVal k l + 1 := by
  intro l
  induction l with
  | nil => simp [addOne, digitsVal_nil, digitsVal_cons]
  | cons x t ih =>
    intro hv
    have ht : validDigits k t := fun d hd => hv d (List.mem_cons_of_mem x hd)
    by_cases hcase : x + 1 = k
    · simp only [addOne, if_pos hcase]
      rw [digitsVal_cons, digitsVal_cons, ih ht]
      have : k * (digitsVal k t + 1) = k * digitsVal k t + k := by ring
      omega
    · simp only [addOne, if_neg hcase]
      rw [digitsVal_cons, digitsVal_cons]
      omega

theorem length_eq_of_digitsVal_eq {k : Nat} {l₁ l₂ : List Nat}
    (h₁ : validDigits k l₁) (h₂ : validDigits k l₂)
    (h : digitsVal k l₁ = digitsVal k l₂) : l₁.length = l₂.length := by
  rcases Nat.lt_trichotomy l₁.length l₂.length with hlt | heq | hgt
  · have := digitsVal_upper h₁
    have := digitsVal_lower k l₂
    have hcs : countShorter k (l₁.length + 1) ≤ countShorter k l₂.length :=
      countShorter_le_of_le k hlt
    omega
  · exact heq
  · have := digitsVal_upper h₂
    have := digitsVal_lower k l₁
    have hcs : countShorter k (l₂.length + 1) ≤ countShorter k l₁.length :=
      countShorter_le_of_le k hgt
    omega

/-- Uniqueness of quotient and remainder in a mixed-radix digit step. -/
theorem digit_step_inj {k x y a b : Nat} (hx : x < k) (hy : y < k)
    (h : x + k * a = y + k * b) : x = y ∧ a = b := by
  have hk : 0 < k := lt_of_le_of_lt (Nat.zero_le x) hx
  have hx' : (x + k * a) % k = x := by
    rw [Nat.add_mul_mod_self_left, Nat.mod_eq_of_lt hx]
  have hy' : (y + k * b) % k = y := by
    rw [Nat.add_mul_mod_self_left, Nat.mod_eq_of_lt hy]
  have hxa : (x + k * a) / k = a := by
    rw [Nat.add_mul_div_left x a hk, Nat.div_eq_of_lt hx, Nat.zero_add]
  have hyb : (y + k * b) / k = b := by
    rw [Nat.add_mul_div_left y b hk, Nat.div_eq_of_lt hy, Nat.zero_add]
  constructor
  · rw [← hx', ← hy', h]
  · rw [← hxa, ← hyb, h]

theorem digitsVal_inj {k : Nat} :
    ∀ {l₁ l₂ : List Nat}, validDigits k l₁ → validDigits k l₂ →
      digitsVal k l₁ = digitsVal k l₂ → l₁ = l₂ := by
  intro l₁
  induction l₁ with
  | nil =>
    intro l₂ h₁ h₂ h
    have hlen := length_eq_of_digitsVal_eq h₁ h₂ h
    exact (List.length_eq_zero.mp hlen.symm).symm
  | cons x t ih =>
    intro l₂ h₁ h₂ h
    have hlen := length_eq_of_digitsVal_eq h₁ h₂ h
    cases l₂ with
    | nil => simp at hlen
    | cons y u =>
      have hx : x < k := h₁ x (List.mem_cons_self x t)
      have hy : y < k := h₂ y (List.mem_cons_self y u)
      have ht : validDigits k t := fun d hd => h₁ d (List.mem_cons_of_mem x hd)
      have hu : validDigits k u := fun d hd => h₂ d (List.mem_cons_of_mem y hd)
      rw [digitsVal_cons, digitsVal_cons] at h
      have h' : x + k * digitsVal k t = y + k * digitsVal k u := by omega
      have hpair := digit_step_inj hx hy h'
      rw [hpair.1, ih ht hu hpair.2]

/-! ## Rendering and iterated production -/

theorem mapM_get?_of_valid {chars : Charset} :
    ∀ {l : List Nat}, validDigits chars.length l →
      l.mapM (fun i => chars.get? i) = some (l.map (fun i => chars.getD i ' ')) := by
  intro l
  induction l with
  | nil => intro _; rfl
  | cons i t ih =>
    intro hv
    have hi : i < chars.length := hv i (List.mem_cons_self i t)
    have ht : validDigits chars.length t := fun d hd => hv d (List.mem_cons_of_mem i hd)
    have hget : chars.get? i = some (chars.getD i ' ') := by
      rw [List.get?_eq_getElem?, List.getElem?_eq_getElem hi, List.getD_eq_getElem?_getD,
        List.getElem?_eq_getElem hi]
      rfl
    simp only [List.mapM_cons, hget, ih ht, Option.pure_def, Option.bind_eq_bind,
      Option.some_bind, List.map_cons]

theorem render_of_valid {chars : Charset} {raw : List Nat}
    (hv : validDigits chars.length raw) :
    BruteForce.render chars raw =
      some (raw.reverse.map (fun i => chars.getD i ' ')) := by
  have hrev : validDigits chars.length raw.reverse := by
    intro d hd
    exact hv d (List.mem_reverse.mp hd)
  unfold BruteForce.render
  exact mapM_get?_of_valid hrev

theorem raw_next_map_fst (b : BruteForce) :
    (BruteForce.raw_next b).map Prod.fst = BruteForce.render b.chars b.raw_current := by
  unfold BruteForce.raw_next
  cases BruteForce.render b.chars b.raw_current <;> rfl

theorem raw_next_of_valid {chars : Charset} {cur : List Char} {raw : List Nat}
    (hv : validDigits chars.length raw) :
    BruteForce.raw_next ⟨chars, cur, raw⟩ =
      some (raw.reverse.map (fun i => chars.getD i ' '),
        ⟨chars, raw.reverse.map (fun i => chars.getD i ' '), addOne chars.length raw⟩) := by
  unfold BruteForce.raw_next
  rw [show (BruteForce.mk chars cur raw).chars = chars from rfl,
    show (BruteForce.mk chars cur raw).raw_current = raw from rfl,
    render_of_valid hv]

theorem produceN_eq_render {chars : Charset} (hk : 1 ≤ chars.length) :
    ∀ (n : Nat) (cur : List Char) (raw : List Nat), validDigits chars.length raw →
      produceN ⟨chars, cur, raw⟩ n =
        BruteForce.render chars ((addOne chars.length)^[n] raw) := by
  intro n
  induction n with
  | zero =>
    intro cur raw hv
    show (BruteForce.raw_next _).map Prod.fst = _
    rw [raw_next_map_fst]
    rfl
  | succ n ih =>
    intro cur raw hv
    show (match BruteForce.raw_next ⟨chars, cur, raw⟩ with
      | some p => produceN p.2 n
      | none => none) = _
    rw [raw_next_of_valid hv]
    simp only
    rw [ih _ (addOne chars.length raw) (addOne_valid hk hv),
      Function.iterate_succ_apply]

/-- The digit vector after `n` advances from the empty vector. -/
def rawAt (k n : Nat) : List Nat := (addOne k)^[n] []

theorem rawAt_succ (k n : Nat) : rawAt k (n + 1) = addOne k (rawAt k n) :=
  Function.iterate_succ_apply' (addOne k) n []

theorem rawAt_valid {k : Nat} (hk : 1 ≤ k) (n : Nat) : validDigits k (rawAt k n) := by
  induction n with
  | zero => intro d hd; simp [rawAt] at hd
  | succ n ih =>
    rw [rawAt_succ]
    exact addOne_valid hk ih

theorem digitsVal_rawAt {k : Nat} (hk : 1 ≤ k) (n : Nat) : digitsVal k (rawAt k n) = n := by
  induction n with
  | zero => simp [rawAt, digitsVal_nil]
  | succ n ih =>
    rw [rawAt_succ, digitsVal_addOne (rawAt_valid hk n), ih]

theorem produceN_new (chars : Charset) (hk : 1 ≤ chars.length) (n : Nat) :
    produceN (BruteForce.new chars) n =
      BruteForce.render chars (rawAt chars.length n) :=
  produceN_eq_render hk n [] [] (fun d hd => absurd hd (List.not_mem_nil d))

/-! ## The padded base-k representation -/

theorem padDigits_length (k : Nat) : ∀ (L m : Nat), (padDigits k L m).length = L := by
  intro L
  induction L with
  | zero => intro m; rfl
  | succ L ih => intro m; simp [padDigits, ih]

theorem padDigits_valid {k : Nat} (hk : 1 ≤ k) :
    ∀ (L m : Nat), validDigits k (padDigits k L m) := by
  intro L
  induction L with
  | zero => intro m d hd; simp [padDigits] at hd
  | succ L ih =>
    intro m d hd
    simp only [padDigits, List.mem_cons] at hd
    rcases hd with h0 | hmem
    · rw [h0]; exact Nat.mod_lt m hk
    · exact ih (m / k) d hmem

theorem ofDigits_padDigits {k : Nat} (hk : 1 ≤ k) :
    ∀ {L m : Nat}, m < k ^ L → Nat.ofDigits k (padDigits k L m) = m := by
  intro L
  induction L with
  | zero =>
    intro m hm
    have : m = 0 := by simpa using Nat.lt_one_iff.mp (by simpa using hm)
    simp [padDigits, this, Nat.ofDigits_nil]
  | succ L ih =>
    intro m hm
    have hdiv : m / k < k ^ L := by
      rw [Nat.div_lt_iff_lt_mul hk]
      calc m < k ^ (L + 1) := hm
      _ = k ^ L * k := pow_succ k L
    simp only [padDigits, Nat.ofDigits_cons, ih hdiv, Nat.cast_id]
    exact Nat.mod_add_div m k

theorem digitsVal_padDigits {k : Nat} (hk : 1 ≤ k) {L m : Nat} (hm : m < k ^ L) :
    digitsVal k (padDigits k L m) = countShorter k L + m := by
  unfold digitsVal
  rw [padDigits_length, ofDigits_padDigits hk hm]

theorem rawAt_eq_padDigits {k : Nat} (hk : 1 ≤ k) {n L : Nat}
    (h1 : countShorter k L ≤ n) (h2 : n < countShorter k (L + 1)) :
    rawAt k n = padDigits k L (n - countShorter k L) := by
  have hm : n - countShorter k L < k ^ L := by
    have := countShorter_succ_pow k L
    omega
  apply digitsVal_inj (rawAt_valid hk n) (padDigits_valid hk L _)
  rw [digitsVal_rawAt hk, digitsVal_padDigits hk hm]
  omega

/-! ## Lexicographic comparison of digit vectors -/

theorem ofDigits_reverse_cons (k x : Nat) (X : List Nat) :
    Nat.ofDigits k (x :: X).reverse =
      Nat.ofDigits k X.reverse + k ^ X.length * x := by
  rw [List.reverse_cons, Nat.ofDigits_append, List.length_reverse]
  simp [Nat.ofDigits_cons, Nat.ofDigits_nil]

theorem lexLt_of_ofDigits_reverse_lt {k : Nat} :
    ∀ (A B : List Nat), A.length = B.length → validDigits k A → validDigits k B →
      Nat.ofDigits k A.reverse < Nat.ofDigits k B.reverse → lexLt A B := by
  intro A
  induction A with
  | nil =>
    intro B hlen _ _ hlt
    have : B = [] := List.length_eq_zero.mp hlen.symm
    rw [this] at hlt
    simp at hlt
  | cons x X ih =>
    intro B hlen hvA hvB hlt
    cases B with
    | nil => simp at hlen
    | cons y Y =>
      have hm : X.length = Y.length := by simpa using hlen
      have hx : x < k := hvA x (List.mem_cons_self x X)
      have hy : y < k := hvB y (List.mem_cons_self y Y)
      have hvX : validDigits k X := fun d hd => hvA d (List.mem_cons_of_mem x hd)
      have hvY : validDigits k Y := fun d hd => hvB d (List.mem_cons_of_mem y hd)
      have hvXr : validDigits k X.reverse := fun d hd => hvX d (List.mem_reverse.mp hd)
      have hvYr : validDigits k Y.reverse := fun d hd => hvY d (List.mem_reverse.mp hd)
      have hra : Nat.ofDigits k X.reverse < k ^ X.length := by
        have := ofDigits_lt_pow hvXr
        rwa [List.length_reverse] at this
      have hrb : Nat.ofDigits k Y.reverse < k ^ Y.length := by
        have := ofDigits_lt_pow hvYr
        rwa [List.length_reverse] at this
      rw [ofDigits_reverse_cons, ofDigits_reverse_cons, hm] at hlt
      rcases Nat.lt_trichotomy x y with hxy | hxy | hxy
      · exact Or.inl hxy
      · right
        refine ⟨hxy, ih Y hm hvX hvY ?_⟩
        rw [hxy] at hlt
        omega
      · exfalso
        have hstep : k ^ Y.length * (y + 1) ≤ k ^ Y.length * x :=
          Nat.mul_le_mul_left _ hxy
        have hexp : k ^ Y.length * (y + 1) = k ^ Y.length * y + k ^ Y.length := by ring
        rw [hm] at hra
        omega

theorem lexLt_rawAt {k : Nat} (hk : 1 ≤ k) {m n : Nat} (hmn : m < n)
    (hlen : (rawAt k m).length = (rawAt k n).length) :
    lexLt (rawAt k m).reverse (rawAt k n).reverse := by
  have hvm := rawAt_valid hk m
  have hvn := rawAt_valid hk n
  have hvm' : validDigits k (rawAt k m).reverse := fun d hd => hvm d (List.mem_reverse.mp hd)
  have hvn' : validDigits k (rawAt k n).reverse := fun d hd => hvn d (List.mem_reverse.mp hd)
  apply lexLt_of_ofDigits_reverse_lt _ _ (by simpa using hlen) hvm' hvn'
  rw [List.reverse_reverse, List.reverse_reverse]
  have hm := digitsVal_rawAt hk m
  have hn := digitsVal_rawAt hk n
  unfold digitsVal at hm hn
  rw [hlen] at hm
  omega

theorem rawAt_length_le {k : Nat} (hk : 1 ≤ k) {m n : Nat} (hmn : m < n) :
    (rawAt k m).length ≤ (rawAt k n).length := by
  by_contra hgt
  push_neg at hgt
  have h1 := digitsVal_upper (rawAt_valid hk n)
  have h2 := digitsVal_lower k (rawAt k m)
  have h3 : countShorter k ((rawAt k n).length + 1) ≤ countShorter k (rawAt k m).length :=
    countShorter_le_of_le k hgt
  rw [digitsVal_rawAt hk] at h1 h2
  omega

/-! ## Translating digit vectors through the charset -/

theorem getD_eq_get {chars : Charset} {d : Nat} (hd : d < chars.length) :
    chars.getD d ' ' = chars.get ⟨d, hd⟩ := by
  rw [List.getD_eq_getElem?_getD, List.getElem?_eq_getElem hd]
  rfl

theorem getD_mem {chars : Charset} {d : Nat} (hd : d < chars.length) :
    chars.getD d ' ' ∈ chars := by
  rw [getD_eq_get hd]
  exact List.get_mem chars d hd

theorem getD_indexOf_of_mem {chars : Charset} {c : Char} (hc : c ∈ chars) :
    chars.getD (List.indexOf c chars) ' ' = c := by
  have h := List.indexOf_lt_length.mpr hc
  rw [getD_eq_get h]
  exact List.indexOf_get h

theorem indexOf_getD_of_nodup {chars : Charset} (hnd : chars.Nodup) {d : Nat}
    (hd : d < chars.length) : List.indexOf (chars.getD d ' ') chars = d := by
  have hmem : chars.getD d ' ' ∈ chars := getD_mem hd
  have hlt := List.indexOf_lt_length.mpr hmem
  have hget : chars.get ⟨List.indexOf (chars.getD d ' ') chars, hlt⟩ = chars.getD d ' ' :=
    List.indexOf_get hlt
  have hget2 : chars.get ⟨List.indexOf (chars.getD d ' ') chars, hlt⟩ = chars.get ⟨d, hd⟩ := by
    rw [hget]
    exact getD_eq_get hd
  exact congrArg Fin.val (List.nodup_iff_injective_get.mp hnd hget2)

theorem valid_map_indexOf {chars : Charset} {s : List Char} (hs : ∀ c ∈ s, c ∈ chars) :
    validDigits chars.length (s.map (fun c => List.indexOf c chars)) := by
  intro d hd
  rcases List.mem_map.mp hd with ⟨c, hc, hdc⟩
  rw [← hdc]
  exact List.indexOf_lt_length.mpr (hs c hc)

theorem map_indexOf_map_getD {chars : Charset} (hnd : chars.Nodup) {l : List Nat}
    (hv : validDigits chars.length l) :
    (l.map (fun i => chars.getD i ' ')).map (fun c => List.indexOf c chars) = l := by
  rw [List.map_map]
  have h : ∀ a ∈ l,
      ((fun c => List.indexOf c chars) ∘ (fun i => chars.getD i ' ')) a = id a := by
    intro a ha
    exact indexOf_getD_of_nodup hnd (hv a ha)
  rw [List.map_congr_left h, List.map_id]

theorem map_getD_map_indexOf {chars : Charset} {s : List Char}
    (hs : ∀ c ∈ s, c ∈ chars) :
    (s.map (fun c => List.indexOf c chars)).map (fun i => chars.getD i ' ') = s := by
  rw [List.map_map]
  have h : ∀ a ∈ s,
      ((fun i => chars.getD i ' ') ∘ (fun c => List.indexOf c chars)) a = id a := by
    intro a ha
    exact getD_indexOf_of_mem (hs a ha)
  rw [List.map_congr_left h, List.map_id]

/-! ## Properties of the resume constructor's index lookup -/

theorem findIdx?_beq_eq_some {chars : Charset} {c : Char} {i : Nat}
    (h : chars.findIdx? (fun c2 => c == c2) = some i) :
    i < chars.length ∧ chars.getD i ' ' = c := by
  rcases List.findIdx?_eq_some_iff_getElem.mp h with ⟨hi, hp, _⟩
  refine ⟨hi, ?_⟩
  have hc : c = chars[i] := by simpa using hp
  rw [getD_eq_get hi, hc]
  rfl

theorem findIdx?_beq_of_mem {chars : Charset} {c : Char} (hc : c ∈ chars) :
    ∃ i, chars.findIdx? (fun c2 => c == c2) = some i := by
  have h1 : (chars.findIdx? (fun c2 => c == c2)).isSome =
      chars.any (fun c2 => c == c2) := List.findIdx?_isSome
  have hany : chars.any (fun c2 => c == c2) = true := by
    rw [List.any_eq_true]
    exact ⟨c, hc, by simp⟩
  rw [hany] at h1
  exact Option.isSome_iff_exists.mp h1

theorem mapM_findIdx?_eq_some {chars : Charset} :
    ∀ {l : List Char} {raw : List Nat},
      l.mapM (fun c1 => chars.findIdx? (fun c2 => c1 == c2)) = some raw →
      validDigits chars.length raw ∧ raw.map (fun i => chars.getD i ' ') = l := by
  intro l
  induction l with
  | nil =>
    intro raw h
    simp only [List.mapM_nil, Option.pure_def, Option.some.injEq] at h
    rw [← h]
    exact ⟨fun d hd => absurd hd (List.not_mem_nil d), rfl⟩
  | cons c t ih =>
    intro raw h
    rw [List.mapM_cons] at h
    cases hfi : chars.findIdx? (fun c2 => c == c2) with
    | none => rw [hfi] at h; simp at h
    | some i =>
      rw [hfi] at h
      cases hmt : t.mapM (fun c1 => chars.findIdx? (fun c2 => c1 == c2)) with
      | none => rw [hmt] at h; simp at h
      | some r =>
        rw [hmt] at h
        simp only [Option.pure_def, Option.bind_eq_bind, Option.some_bind,
          Option.some.injEq] at h
        rcases ih hmt with ⟨hvr, hmap⟩
        rcases findIdx?_beq_eq_some hfi with ⟨hi, hgd⟩
        rw [← h]
        constructor
        · intro d hd
          rcases List.mem_cons.mp hd with h0 | hmem
          · rw [h0]; exact hi
          · exact hvr d hmem
        · rw [List.map_cons, hgd, hmap]

theorem mapM_findIdx?_of_mem {chars : Charset} :
    ∀ {l : List Char}, (∀ c ∈ l, c ∈ chars) →
      ∃ raw, l.mapM (fun c1 => chars.findIdx? (fun c2 => c1 == c2)) = some raw := by
  intro l
  induction l with
  | nil => intro _; exact ⟨[], rfl⟩
  | cons c t ih =>
    intro hmem
    rcases findIdx?_beq_of_mem (hmem c (List.mem_cons_self c t)) with ⟨i, hfi⟩
    rcases ih (fun x hx => hmem x (List.mem_cons_of_mem c hx)) with ⟨r, hmt⟩
    refine ⟨i :: r, ?_⟩
    rw [List.mapM_cons, hfi, hmt]
    rfl

theorem mapM_findIdx?_eq_none {chars : Charset} :
    ∀ {l : List Char}, (∃ c ∈ l, c ∉ chars) →
      l.mapM (fun c1 => chars.findIdx? (fun c2 => c1 == c2)) = none := by
  intro l
  induction l with
  | nil => intro h; rcases h with ⟨c, hc, _⟩; exact absurd hc (List.not_mem_nil c)
  | cons c t ih =>
    intro h
    rw [List.mapM_cons]
    rcases h with ⟨x, hx, hxn⟩
    rcases List.mem_cons.mp hx with hxc | hxt
    · have hfi : chars.findIdx? (fun c2 => c == c2) = none := by
        rw [List.findIdx?_eq_none_iff]
        intro y hy
        have : c ≠ y := fun e => hxn (hxc ▸ e ▸ hy)
        simpa using this
      rw [hfi]
      rfl
    · cases hfi : chars.findIdx? (fun c2 => c == c2) with
      | none => rfl
      | some i =>
        rw [ih ⟨x, hxt, hxn⟩]
        rfl

/-! ## Claim theorems -/

/-- **C1**: starting from `BruteForce::new` over an alphabet with `k ≥ 1`
characters, the `n`-th string returned by `raw_next` (0-indexed) has length the
unique `L` with `k^0+...+k^(L-1) ≤ n < k^0+...+k^L`, and equals the base-`k`
representation of `n - (k^0+...+k^(L-1))` zero-padded to `L` digits,
most-significant digit first, mapped digit-by-digit through the alphabet;
consequently, when the alphabet's characters are distinct, every finite string
over it is produced exactly once, in shortlex-then-lexicographic (by alphabet
index) order. -/
theorem C1_shortlex_enumeration (chars : Charset) (hk : 1 ≤ chars.length) :
    (∀ n L, countShorter chars.length L ≤ n → n < countShorter chars.length (L + 1) →
      produceN (BruteForce.new chars) n =
        some ((padDigits chars.length L (n - countShorter chars.length L)).reverse.map
          (fun d => chars.getD d ' ')) ∧
      ∀ s, produceN (BruteForce.new chars) n = some s → s.length = L) ∧
    (chars.Nodup →
      (∀ s : List Char, (∀ c ∈ s, c ∈ chars) →
        ∃ n, produceN (BruteForce.new chars) n = some s) ∧
      (∀ m n s, produceN (BruteForce.new chars) m = some s →
        produceN (BruteForce.new chars) n = some s → m = n) ∧
      (∀ m n s t, m < n → produceN (BruteForce.new chars) m = some s →
        produceN (BruteForce.new chars) n = some t → shortlexIdxLt chars s t)) := by
  have hrender : ∀ n, produceN (BruteForce.new chars) n =
      some ((rawAt chars.length n).reverse.map (fun d => chars.getD d ' ')) := by
    intro n
    rw [produceN_new chars hk n, render_of_valid (rawAt_valid hk n)]
  constructor
  · intro n L h1 h2
    have heq := rawAt_eq_padDigits hk h1 h2
    constructor
    · rw [hrender n, heq]
    · intro s hs
      rw [hrender n, Option.some.injEq] at hs
      rw [← hs]
      simp [heq, padDigits_length]
  · intro hnd
    refine ⟨?_, ?_, ?_⟩
    · intro s hs
      refine ⟨digitsVal chars.length ((s.map (fun c => List.indexOf c chars)).reverse), ?_⟩
      have hv : validDigits chars.length ((s.map (fun c => List.indexOf c chars)).reverse) :=
        fun d hd => valid_map_indexOf hs d (List.mem_reverse.mp hd)
      have hraw : rawAt chars.length
          (digitsVal chars.length ((s.map (fun c => List.indexOf c chars)).reverse)) =
          (s.map (fun c => List.indexOf c chars)).reverse :=
        digitsVal_inj (rawAt_valid hk _) hv (digitsVal_rawAt hk _)
      rw [hrender, hraw, List.reverse_reverse, map_getD_map_indexOf hs]
    · intro m n s hm hn
      rw [hrender m, Option.some.injEq] at hm
      rw [hrender n, Option.some.injEq] at hn
      have h := hm.trans hn.symm
      have h2 := congrArg (List.map (fun c => List.indexOf c chars)) h
      rw [map_indexOf_map_getD hnd (fun d hd => rawAt_valid hk m d (List.mem_reverse.mp hd)),
        map_indexOf_map_getD hnd (fun d hd => rawAt_valid hk n d (List.mem_reverse.mp hd))]
        at h2
      have h3 : rawAt chars.length m = rawAt chars.length n := List.reverse_injective h2
      have hm' := digitsVal_rawAt hk m
      have hn' := digitsVal_rawAt hk n
      rw [h3] at hm'
      omega
    · intro m n s t hmn hm hn
      rw [hrender m, Option.some.injEq] at hm
      rw [hrender n, Option.some.injEq] at hn
      have hsm : s.map (fun c => List.indexOf c chars) = (rawAt chars.length m).reverse := by
        rw [← hm]
        exact map_indexOf_map_getD hnd (fun d hd => rawAt_valid hk m d (List.mem_reverse.mp hd))
      have htn : t.map (fun c => List.indexOf c chars) = (rawAt chars.length n).reverse := by
        rw [← hn]
        exact map_indexOf_map_getD hnd (fun d hd => rawAt_valid hk n d (List.mem_reverse.mp hd))
      have hslen : s.length = (rawAt chars.length m).length := by
        rw [← hm]
        simp
      have htlen : t.length = (rawAt chars.length n).length := by
        rw [← hn]
        simp
      rcases lt_or_eq_of_le (rawAt_length_le hk hmn) with hlt | heq
      · left
        rw [hslen, htlen]
        exact hlt
      · right
        refine ⟨by rw [hslen, htlen, heq], ?_⟩
        rw [hsm, htn]
        exact lexLt_rawAt hk hmn heq

/-- Witness for C1 at the concrete alphabet `['A','B']` and index `n = 4`
(so `L = 2`, offset `1`): the fifth produced string is `"AB"`. -/
theorem C1_shortlex_enumeration_witness :
    produceN (BruteForce.new ['A', 'B']) 4 = some ['A', 'B'] := by
  have h := ((C1_shortlex_enumeration ['A', 'B'] (by decide)).1 4 2
    (by decide) (by decide)).1
  exact h.trans (by decide)

/-- Counterexample to **C2**: with alphabet `['A','B']` the fifth produced
string is `"AB"`, not `"BA"`: the increment step advances index 0 of
`raw_current`, which is the *last* character of the rendered string. -/
theorem C2_counterexample :
    produceN (BruteForce.new ['A', 'B']) 4 = some ['A', 'B'] ∧
    produceN (BruteForce.new ['A', 'B']) 4 ≠ some ['B', 'A'] := by
  constructor
  · decide
  · decide

/-- **C2 (amended)**: with alphabet `['A','B']` and from-scratch construction,
the first five strings returned by successive `raw_next` calls are, in order:
`""`, `"A"`, `"B"`, `"AA"`, `"AB"`. -/
theorem C2_first_five :
    produceN (BruteForce.new ['A', 'B']) 0 = some [] ∧
    produceN (BruteForce.new ['A', 'B']) 1 = some ['A'] ∧
    produceN (BruteForce.new ['A', 'B']) 2 = some ['B'] ∧
    produceN (BruteForce.new ['A', 'B']) 3 = some ['A', 'A'] ∧
    produceN (BruteForce.new ['A', 'B']) 4 = some ['A', 'B'] := by
  refine ⟨?_, ?_, ?_, ?_, ?_⟩ <;> decide

/-- **C3**: for every alphabet and every string `S` over it, constructing via
`new_by_start_string` succeeds and the first `raw_next` call returns exactly
`S`. -/
theorem C3_resume_next_is_start (chars : Charset) (s : List Char)
    (hs : ∀ c ∈ s, c ∈ chars) :
    ∃ b, BruteForce.new_by_start_string chars s = Except.ok b ∧
      produceN b 0 = some s := by
  have hs' : ∀ c ∈ s.reverse, c ∈ chars := fun c hc => hs c (List.mem_reverse.mp hc)
  rcases mapM_findIdx?_of_mem hs' with ⟨raw, hraw⟩
  rcases mapM_findIdx?_eq_some hraw with ⟨hv, hmap⟩
  refine ⟨⟨chars, [], raw⟩, ?_, ?_⟩
  · unfold BruteForce.new_by_start_string
    rw [hraw]
  · show (BruteForce.raw_next _).map Prod.fst = some s
    rw [raw_next_map_fst]
    show BruteForce.render chars raw = some s
    rw [render_of_valid hv, List.map_reverse, hmap, List.reverse_reverse]

/-- Witness for C3 at the spec's concrete scenario: resuming
`['A','B','C']` from `"CCB"` first produces `"CCB"` itself. -/
theorem C3_resume_next_is_start_witness :
    ∃ b, BruteForce.new_by_start_string ['A', 'B', 'C'] ['C', 'C', 'B'] = Except.ok b ∧
      produceN b 0 = some ['C', 'C', 'B'] :=
  C3_resume_next_is_start ['A', 'B', 'C'] ['C', 'C', 'B'] (by decide)

/-- Counterexample to **C4**: with the empty alphabet, construction succeeds
and the first `raw_next` call does not fail either — it returns the empty
string (no `EmptyAlphabet` error exists anywhere in the code). -/
theorem C4_counterexample :
    BruteForce.raw_next (BruteForce.new ([] : Charset)) =
      some ([], ⟨[], [], [0]⟩) ∧
    produceN (BruteForce.new ([] : Charset)) 0 = some [] := by
  constructor
  · decide
  · decide

theorem produceN_none_of_render_none {b : BruteForce}
    (h : BruteForce.render b.chars b.raw_current = none) (n : Nat) :
    produceN b n = none := by
  cases n with
  | zero =>
    show (BruteForce.raw_next b).map Prod.fst = none
    rw [raw_next_map_fst, h]
  | succ n =>
    show (match BruteForce.raw_next b with
      | some p => produceN p.2 n
      | none => none) = none
    unfold BruteForce.raw_next
    rw [h]

/-- **C4 (amended)**: constructing with a zero-length alphabet succeeds and
the first `raw_next` returns the empty string; every later call fails the
internal digit-range assertion (modelled as `none`) — the code defines no
`EmptyAlphabet` error, does not loop forever, and the failure surfaces at the
second advance, not at construction or first advance. -/
theorem C4_empty_alphabet_behavior (n : Nat) :
    produceN (BruteForce.new ([] : Charset)) 0 = some [] ∧
    produceN (BruteForce.new ([] : Charset)) (n + 1) = none := by
  refine ⟨by decide, ?_⟩
  have h : BruteForce.raw_next (BruteForce.new ([] : Charset)) =
      some ([], ⟨[], [], [0]⟩) := by decide
  show (match BruteForce.raw_next (BruteForce.new ([] : Charset)) with
    | some p => produceN p.2 n
    | none => none) = none
  rw [h]
  exact produceN_none_of_render_none (by decide) n

/-- Counterexample to **C5**: resuming `['X','Y']` from `"XZ"` does fail at
construction, but with the `.expect` panic's fixed message, which never names
the offending character `'Z'` (or its position). -/
theorem C5_counterexample :
    BruteForce.new_by_start_string ['X', 'Y'] ['X', 'Z'] =
      Except.error "characters in start_string must exist in charset" ∧
    ∀ c ∈ "characters in start_string must exist in charset".toList, c ≠ 'Z' := by
  constructor
  · unfold BruteForce.new_by_start_string
    rw [mapM_findIdx?_eq_none ⟨'Z', by decide, by decide⟩]
  · decide

/-- **C5 (amended)**: for every alphabet and every resume string containing a
character absent from it, `new_by_start_string` fails synchronously at
construction (the `.expect` panic), with the fixed message
`"characters in start_string must exist in charset"`, which does not name the
offending character or position. -/
theorem C5_resume_error_fixed_message (chars : Charset) (s : List Char)
    (h : ∃ c ∈ s, c ∉ chars) :
    BruteForce.new_by_start_string chars s =
      Except.error "characters in start_string must exist in charset" := by
  have h' : ∃ c ∈ s.reverse, c ∉ chars := by
    rcases h with ⟨c, hc, hcn⟩
    exact ⟨c, List.mem_reverse.mpr hc, hcn⟩
  unfold BruteForce.new_by_start_string
  rw [mapM_findIdx?_eq_none h']

/-- Witness for C5 at the spec's concrete scenario `['X','Y']`, `"XZ"`. -/
theorem C5_resume_error_fixed_message_witness :
    BruteForce.new_by_start_string ['X', 'Y'] ['X', 'Z'] =
      Except.error "characters in start_string must exist in charset" :=
  C5_resume_error_fixed_message ['X', 'Y'] ['X', 'Z'] ⟨'Z', by decide, by decide⟩

/-- **C6**: for every alphabet with at least one character and every `N`,
constructing via `new_at` and calling `raw_next` once returns the alphabet's
first character repeated `N` times (in particular a string of length exactly
`N`). -/
theorem C6_skip_first_output (chars : Charset) (start : Nat) (hk : 1 ≤ chars.length) :
    produceN (BruteForce.new_at chars start) 0 =
      some (List.replicate start (chars.getD 0 ' ')) ∧
    (List.replicate start (chars.getD 0 ' ')).length = start := by
  refine ⟨?_, List.length_replicate start _⟩
  show (BruteForce.raw_next _).map Prod.fst = _
  rw [raw_next_map_fst]
  show BruteForce.render chars (List.replicate start 0) = _
  have hv : validDigits chars.length (List.replicate start 0) := by
    intro d hd
    rw [List.eq_of_mem_replicate hd]
    omega
  rw [render_of_valid hv, List.reverse_replicate, List.map_replicate]

/-- Witness for C6 with `['A','B']` and `N = 3`. -/
theorem C6_skip_first_output_witness :
    produceN (BruteForce.new_at ['A', 'B'] 3) 0 = some ['A', 'A', 'A'] := by
  have h := (C6_skip_first_output ['A', 'B'] 3 (by decide)).1
  exact h.trans (by decide)

theorem reachable_chars {chars : Charset} {b : BruteForce} (hb : Reachable chars b) :
    b.chars = chars := by
  induction hb with
  | new => rfl
  | new_at start => rfl
  | resume s b hs h =>
    unfold BruteForce.new_by_start_string at h
    cases hm : (s.reverse.mapM (fun c1 => chars.findIdx? (fun c2 => c1 == c2))) with
    | none => rw [hm] at h; exact absurd h (by simp)
    | some raw =>
      rw [hm] at h
      injection h with h'
      rw [← h']
  | step b b' out hb h ih =>
    unfold BruteForce.raw_next at h
    cases hr : BruteForce.render b.chars b.raw_current with
    | none => rw [hr] at h; exact absurd h (by simp)
    | some s =>
      rw [hr] at h
      injection h with h'
      have hb' : b' = ⟨b.chars, s, addOne b.chars.length b.raw_current⟩ :=
        (congrArg Prod.snd h').symm
      rw [hb']
      exact ih

/-- **C7**: for every alphabet with at least one character, in every state
reachable from the three constructors (from scratch, skip to length `N`, or
resume from a string over the alphabet) by any number of `raw_next` calls,
every element of `raw_current` is strictly less than the alphabet length. -/
theorem C7_digit_invariant (chars : Charset) (b : BruteForce)
    (hk : 1 ≤ chars.length) (hb : Reachable chars b) :
    validDigits chars.length b.raw_current := by
  induction hb with
  | new => intro d hd; exact absurd hd (List.not_mem_nil d)
  | new_at start =>
    intro d hd
    rw [List.eq_of_mem_replicate hd]
    omega
  | resume s b hs h =>
    unfold BruteForce.new_by_start_string at h
    cases hm : (s.reverse.mapM (fun c1 => chars.findIdx? (fun c2 => c1 == c2))) with
    | none => rw [hm] at h; exact absurd h (by simp)
    | some raw =>
      rw [hm] at h
      injection h with h'
      rw [← h']
      exact (mapM_findIdx?_eq_some hm).1
  | step b b' out hb h ih =>
    have hc : b.chars = chars := reachable_chars hb
    unfold BruteForce.raw_next at h
    cases hr : BruteForce.render b.chars b.raw_current with
    | none => rw [hr] at h; exact absurd h (by simp)
    | some s =>
      rw [hr] at h
      injection h with h'
      have hb' : b' = ⟨b.chars, s, addOne b.chars.length b.raw_current⟩ :=
        (congrArg Prod.snd h').symm
      rw [hb']
      show validDigits chars.length (addOne b.chars.length b.raw_current)
      rw [hc]
      exact addOne_valid hk ih

/-- Witness for C7: the state reached from `new ['A']` after one `raw_next`
call has digit vector `[0]`, and `0 < 1`. -/
theorem C7_digit_invariant_witness :
    validDigits (List.length (['A'] : Charset)) (BruteForce.mk ['A'] [] [0]).raw_current :=
  C7_digit_invariant ['A'] ⟨['A'], [], [0]⟩ (by decide)
    (Reachable.step (BruteForce.new ['A']) ⟨['A'], [], [0]⟩ [] Reachable.new (by decide))

/-- **C8**: the `Iterator` adapter is a thin wrapper over `raw_next`: whenever
`raw_next` returns a string and a mutated state, `next` returns `Some` of
exactly that string with exactly that state mutation; and whenever `next`
returns at all, its value is `Some` — never `None`. -/
theorem C8_iterator_thin_adapter (b : BruteForce) :
    (∀ s b', BruteForce.raw_next b = some (s, b') → iterNext b = some (some s, b')) ∧
    (∀ o b', iterNext b = some (o, b') →
      ∃ s, o = some s ∧ BruteForce.raw_next b = some (s, b')) := by
  constructor
  · intro s b' h
    unfold iterNext
    rw [h]
    rfl
  · intro o b' h
    unfold iterNext at h
    cases hr : BruteForce.raw_next b with
    | none => rw [hr] at h; exact absurd h (by simp)
    | some p =>
      rcases p with ⟨s, b''⟩
      rw [hr] at h
      simp only [Option.map_some', Option.some.injEq, Prod.mk.injEq] at h
      refine ⟨s, h.1.symm, ?_⟩
      rw [← h.2]

/-- Witness for C8 at `new ['A']`: the adapter yields `Some ""` and the same
successor state as `raw_next`. -/
theorem C8_iterator_thin_adapter_witness :
    iterNext (BruteForce.new ['A']) = some (some [], ⟨['A'], [], [0]⟩) :=
  (C8_iterator_thin_adapter (BruteForce.new ['A'])).1 [] ⟨['A'], [], [0]⟩ (by decide)

/-- **C10**: the degenerate construction modes coincide with from-scratch
construction: `new_at(charset, 0)` and `new_by_start_string(charset, "")` both
yield exactly the state of `new(charset)`, so their entire produced sequences
are identical to that of `new(charset)`. -/
theorem C10_degenerate_constructors (chars : Charset) :
    BruteForce.new_at chars 0 = BruteForce.new chars ∧
    BruteForce.new_by_start_string chars [] = Except.ok (BruteForce.new chars) ∧
    (∀ n, produceN (BruteForce.new_at chars 0) n = produceN (BruteForce.new chars) n) := by
  refine ⟨rfl, rfl, fun n => rfl⟩
